import Mathlib

/-!
Verification of the EMBLmyGFF3 record-rendering pipeline.

The entry point `src/main.py` is embedded directly (output filename
resolution and the record output loop).  The record renderer itself
(the `gffemblconverter` package: EmblWriter, feature table, sequence
block, thread-pool coordination) is not part of the visible sources,
so it is modelled from the specification, faithful to its words; each
such definition carries a doc comment saying so.

Strings from the Python code are modelled as `List Char`, so that
Python's `str.endswith` and `+` become list suffix and append.
-/

namespace EmblMyGFF3

/-- Python `str.endswith`: true iff the second list is a suffix of the first. -/
def endswith (s suff : List Char) : Bool := decide (suff <:+ s)

/-- The characters of the suffix `.embl`. -/
def emblSuffix : List Char := ".embl".toList

/-- The characters of the suffix `.gz`. -/
def gzSuffix : List Char := ".gz".toList

/-- The characters of the suffix `.embl.gz`. -/
def emblGzSuffix : List Char := ".embl.gz".toList

/-- `resolve_output` from src/main.py lines 50-61: picks the output filename,
appending `.embl` (plain output) or `.embl.gz` / just `.gz` (gzip output)
when the requested name does not already carry the needed suffix. -/
def resolve_output (gz : Bool) (outfile : List Char) : List Char :=
  if gz then
    if ¬ endswith outfile emblGzSuffix then
      if endswith outfile emblSuffix then outfile ++ gzSuffix
      else outfile ++ emblGzSuffix
    else outfile
  else
    if ¬ endswith outfile emblSuffix then outfile ++ emblSuffix
    else outfile

/-- The suffix `resolve_output` must guarantee, depending on the gzip flag. -/
def requiredSuffix (gz : Bool) : List Char := if gz then emblGzSuffix else emblSuffix

/-- One EmblWriter, as built in the record-parsing loop of src/main.py
lines 233-236: it wraps one parsed record.  The wrapped record type is kept
abstract, since only the control flow of the loops matters here. -/
structure EmblWriter (α : Type) where
  record : α

/-- The record-parsing loop of src/main.py lines 233-236: one `EmblWriter`
is appended to `RECORDS` for every parsed record. -/
def buildRecords {α : Type} (parsed : List α) : List (EmblWriter α) :=
  parsed.map EmblWriter.mk

/-- The output loop of src/main.py lines 241-248: iterate over the built
writers, wait for the current writer to finish rendering, write it out,
then `break` — so the loop body runs at most once and only the head of the
list is ever emitted. -/
def outputLoop {β : Type} : List β → List β
  | [] => []
  | w :: _ => [w]

theorem endswith_eq_true {s suff : List Char} : endswith s suff = true ↔ suff <:+ s := by
  simp [endswith]

theorem endswith_append (s suff : List Char) : endswith (s ++ suff) suff = true :=
  endswith_eq_true.mpr (List.suffix_append s suff)

theorem emblGz_eq : emblGzSuffix = emblSuffix ++ gzSuffix := by decide

theorem endswith_embl_gz {s : List Char} (h : endswith s emblSuffix = true) :
    endswith (s ++ gzSuffix) emblGzSuffix = true := by
  rw [endswith_eq_true] at h ⊢
  obtain ⟨t, rfl⟩ := h
  rw [emblGz_eq, List.append_assoc]
  exact List.suffix_append t (emblSuffix ++ gzSuffix)

/-- C10: for every output filename, `resolve_output` yields a name carrying
the required suffix (`.embl`, or `.embl.gz` under gzip); it only ever appends
the missing suffix parts (a name ending in `.embl` gains only `.gz` under
gzip), and a name already carrying the required suffix is used unchanged. -/
theorem resolve_output_suffix_law (gz : Bool) (outfile : List Char) :
    endswith (resolve_output gz outfile) (requiredSuffix gz) = true ∧
    resolve_output gz outfile =
      outfile ++
        (if endswith outfile (requiredSuffix gz) then []
         else if gz && endswith outfile emblSuffix then gzSuffix
         else requiredSuffix gz) := by
  cases gz with
  | false =>
    simp only [resolve_output, requiredSuffix, if_neg, Bool.false_and]
    by_cases h : endswith outfile emblSuffix = true
    · simp [h]
    · simp only [Bool.not_eq_true] at h
      simp [h, endswith_append]
  | true =>
    simp only [resolve_output, requiredSuffix, if_pos, Bool.true_and]
    by_cases hgz : endswith outfile emblGzSuffix = true
    · simp [hgz]
    · simp only [Bool.not_eq_true] at hgz
      by_cases he : endswith outfile emblSuffix = true
      · simp [hgz, he, endswith_embl_gz he]
      · simp only [Bool.not_eq_true] at he
        simp [hgz, he, endswith_append]

/-- C1: a single invocation builds an EmblWriter for every parsed record,
but the output loop of src/main.py ends its body with `break`, so only the
first fully-rendered record is ever written; `take 1` of the writer list is
exactly what is emitted, hence records after the first never appear. -/
theorem multi_record_truncation {α : Type} (parsed : List α) :
    (buildRecords parsed).length = parsed.length ∧
    outputLoop (buildRecords parsed) = (buildRecords parsed).take 1 := by
  constructor
  · simp [buildRecords]
  · cases h : buildRecords parsed with
    | nil => simp [outputLoop]
    | cons w ws => simp [outputLoop]

/-- Modelled from the spec: `ProgressState` (spec section 3), the per-record
counter pair kept by the Concurrency Coordinator, which is implemented in the
`gffemblconverter` package and missing from the visible sources (src/main.py
only polls it).  `completed` counts finished rendering tasks, `total` the
number of tasks of the record. -/
structure ProgressState where
  completed : Nat
  total : Nat

/-- Modelled from the spec: `get_progress` of the Concurrency Coordinator
(spec section 4.4), missing from the visible sources.  It returns
`completed / total`, with a `total` of zero reported as `1` (nothing to do,
trivially done).  It is a pure total function of the state, so querying it
never blocks and never raises. -/
def get_progress (p : ProgressState) : ℚ :=
  if p.total = 0 then 1 else (p.completed : ℚ) / (p.total : ℚ)

/-- Modelled from the spec: a completing worker task atomically increments
the completed counter (spec section 4.4); the total never changes during a
render. -/
def completeTask (p : ProgressState) : ProgressState :=
  ⟨p.completed + 1, p.total⟩

/-- C2: under the coordinator invariant `completed ≤ total`, `get_progress`
always lies in the closed interval `[0, 1]`; before any task has completed it
returns `0` (whenever there is at least one task), and with a total of zero
it returns `1`. -/
theorem get_progress_range (p : ProgressState) (h : p.completed ≤ p.total) :
    0 ≤ get_progress p ∧ get_progress p ≤ 1 ∧
    get_progress ⟨0, p.total + 1⟩ = 0 ∧
    get_progress ⟨p.completed, 0⟩ = 1 := by
  refine ⟨?_, ?_, ?_, ?_⟩
  · unfold get_progress
    split
    · norm_num
    · positivity
  · unfold get_progress
    split
    · norm_num
    · rename_i htot
      rw [div_le_one (by positivity)]
      exact_mod_cast h
  · simp [get_progress]
  · simp [get_progress]

/-- Witness for C2 at the concrete state of one finished task out of two. -/
theorem get_progress_range_witness :
    0 ≤ get_progress ⟨1, 2⟩ ∧ get_progress ⟨1, 2⟩ ≤ 1 ∧
    get_progress ⟨0, 2 + 1⟩ = 0 ∧ get_progress ⟨1, 0⟩ = 1 :=
  get_progress_range ⟨1, 2⟩ (by decide)

/-- C5: when a task completes while some task is still outstanding, the
completed count still does not exceed the total, the progress value does not
decrease, and a state whose completed count has reached the total (the state
in which the blocking conversion returns) reports exactly `1`. -/
theorem get_progress_monotone (p : ProgressState) (h : p.completed < p.total) :
    (completeTask p).completed ≤ (completeTask p).total ∧
    get_progress p ≤ get_progress (completeTask p) ∧
    get_progress ⟨p.total, p.total⟩ = 1 := by
  refine ⟨h, ?_, ?_⟩
  · unfold get_progress completeTask
    have htot : p.total ≠ 0 := Nat.not_eq_zero_of_lt h
    simp only [htot, if_neg, ite_false]
    apply div_le_div_of_nonneg_right ?_ ?_ |>.trans_eq rfl
    · exact_mod_cast Nat.le_succ _
    · positivity
  · unfold get_progress
    rcases Nat.eq_zero_or_pos p.total with h0 | hpos
    · simp [h0]
    · have : (p.total : ℚ) ≠ 0 := by positivity
      simp [hpos.ne', div_self this]

/-- Witness for C5 at the concrete state of one finished task out of two. -/
theorem get_progress_monotone_witness :
    (completeTask ⟨1, 2⟩).completed ≤ (completeTask ⟨1, 2⟩).total ∧
    get_progress ⟨1, 2⟩ ≤ get_progress (completeTask ⟨1, 2⟩) ∧
    get_progress ⟨2, 2⟩ = 1 :=
  get_progress_monotone ⟨1, 2⟩ (by decide)

/-- Modelled from the spec: the quoting escape rule for free-text qualifier
values (spec sections 3 and 4.2), implemented in the `gffemblconverter`
feature-table code and missing from the visible sources: every embedded
quote character is doubled. -/
def escapeQuotes : List Char → List Char
  | [] => []
  | c :: rest =>
    if c = '"' then '"' :: '"' :: escapeQuotes rest
    else c :: escapeQuotes rest

/-- Modelled from the spec: the conceptual re-parse of an escaped value
(spec section 8, round-trip property): a doubled quote reads back as one
quote character, everything else reads back unchanged. -/
def unescapeQuotes : List Char → List Char
  | [] => []
  | [c] => [c]
  | c :: d :: rest =>
    if c = '"' ∧ d = '"' then '"' :: unescapeQuotes rest
    else c :: unescapeQuotes (d :: rest)

/-- Modelled from the spec: the rendered form of a free-text qualifier value
(spec section 3): the escaped text enclosed in quote characters. -/
def renderedQualValue (v : List Char) : List Char :=
  '"' :: escapeQuotes v ++ ['"']

/-- Modelled from the spec: the conceptual re-parse of a rendered quoted
value: strip the enclosing quotes, then undo the doubling. -/
def parseQualValue (l : List Char) : List Char :=
  unescapeQuotes ((l.drop 1).dropLast)

theorem escapeQuotes_ne_nil {v : List Char} (h : v ≠ []) : escapeQuotes v ≠ [] := by
  cases v with
  | nil => exact absurd rfl h
  | cons c rest =>
    by_cases hc : c = '"' <;> simp [escapeQuotes, hc]

theorem unescape_escape (v : List Char) : unescapeQuotes (escapeQuotes v) = v := by
  induction v with
  | nil => rfl
  | cons c rest ih =>
    by_cases hc : c = '"'
    · subst hc
      simp only [escapeQuotes, if_pos rfl]
      cases he : escapeQuotes rest with
      | nil =>
        have : rest = [] := by
          by_contra hne
          exact escapeQuotes_ne_nil hne he
        simp [unescapeQuotes, this]
      | cons e es =>
        rw [← he]
        simpa [unescapeQuotes] using ih
    · simp only [escapeQuotes, if_neg hc]
      cases he : escapeQuotes rest with
      | nil =>
        have : rest = [] := by
          by_contra hne
          exact escapeQuotes_ne_nil hne he
        simp [unescapeQuotes, this]
      | cons e es =>
        have hcons : unescapeQuotes (c :: e :: es) = c :: unescapeQuotes (e :: es) := by
          have hnot : ¬ (c = '"' ∧ e = '"') := fun hx => hc hx.1
          simp [unescapeQuotes, hnot]
        rw [hcons, ← he, ih]

theorem escapeQuotes_count (v : List Char) :
    (escapeQuotes v).count '"' = 2 * v.count '"' := by
  induction v with
  | nil => rfl
  | cons c rest ih =>
    by_cases hc : c = '"'
    · subst hc
      simp [escapeQuotes, List.count_cons, ih]
      ring
    · simp [escapeQuotes, hc, List.count_cons, ih]

/-- C7: a free-text qualifier value containing an embedded quote character
renders with every embedded quote doubled (the rendered value holds twice as
many quote characters between its delimiters), and re-parsing the rendered
value recovers the original value exactly. -/
theorem qualifier_quote_roundtrip (v : List Char) (h : '"' ∈ v) :
    parseQualValue (renderedQualValue v) = v ∧
    (escapeQuotes v).count '"' = 2 * v.count '"' ∧
    2 ≤ (escapeQuotes v).count '"' := by
  refine ⟨?_, escapeQuotes_count v, ?_⟩
  · unfold parseQualValue renderedQualValue
    simp [List.dropLast_concat, unescape_escape]
  · rw [escapeQuotes_count]
    have : 1 ≤ v.count '"' := List.one_le_count_iff.mpr h
    omega

/-- Witness for C7 at a concrete value with one embedded quote. -/
theorem qualifier_quote_roundtrip_witness :
    parseQualValue (renderedQualValue ('a' :: '"' :: ['b'])) = 'a' :: '"' :: ['b'] ∧
    (escapeQuotes ('a' :: '"' :: ['b'])).count '"' =
      2 * ('a' :: '"' :: ['b']).count '"' ∧
    2 ≤ (escapeQuotes ('a' :: '"' :: ['b'])).count '"' :=
  qualifier_quote_roundtrip ('a' :: '"' :: ['b']) (by decide)

/-- Modelled from the spec: the per-base composition count of the Sequence
Block Renderer (spec section 4.3), implemented in the `gffemblconverter`
package and missing from the visible sources: the number of symbols whose
lower-cased form equals the given canonical base. -/
def countBase (s : List Char) (base : Char) : Nat :=
  s.countP (fun c => c.toLower = base)

/-- Modelled from the spec: the fifth composition bucket of the Sequence
Block Renderer: symbols outside the canonical alphabet, case-insensitively. -/
def countOther (s : List Char) : Nat :=
  s.countP (fun c =>
    ¬ (c.toLower = 'a' ∨ c.toLower = 'c' ∨ c.toLower = 'g' ∨ c.toLower = 't'))

/-- C9: for every non-empty base sequence, the four canonical base counts
(case-insensitive) plus the other bucket sum exactly to the sequence
length. -/
theorem composition_counts_sum (s : List Char) (h : 0 < s.length) :
    countBase s 'a' + countBase s 'c' + countBase s 'g' + countBase s 't' +
      countOther s = s.length := by
  clear h
  induction s with
  | nil => rfl
  | cons c rest ih =>
    simp only [countBase, countOther, List.countP_cons, List.length_cons] at *
    by_cases ha : c.toLower = 'a' <;> by_cases hc : c.toLower = 'c' <;>
      by_cases hg : c.toLower = 'g' <;> by_cases ht : c.toLower = 't' <;>
      simp_all <;> omega

/-- Witness for C9 at a concrete mixed-alphabet sequence. -/
theorem composition_counts_sum_witness :
    0 < ("AcGtN".toList).length ∧
    countBase "AcGtN".toList 'a' + countBase "AcGtN".toList 'c' +
      countBase "AcGtN".toList 'g' + countBase "AcGtN".toList 't' +
      countOther "AcGtN".toList = ("AcGtN".toList).length :=
  ⟨by decide, composition_counts_sum "AcGtN".toList (by decide)⟩

/-- The maximum column width of the flat-file format (spec section 6:
"maximum line width fixed by the target specification"; 80 for EMBL). -/
def maxLineWidth : Nat := 80

/-- Modelled from the spec: splitting a field body into chunks no wider than
the given width, the unit step of the line-wrapping of the renderer (spec
sections 4.1 and 4.2), which is implemented in the `gffemblconverter`
package and missing from the visible sources. -/
def chunksOf (width : Nat) (body : List Char) : List (List Char) :=
  if body.length ≤ width ∨ width = 0 then [body]
  else body.take width :: chunksOf width (body.drop width)
termination_by body.length
decreasing_by
  simp only [List.length_drop]
  omega

/-- Modelled from the spec: wrapping a field body, every produced line
re-prefixed with the field's line code / indent (spec sections 4.1, 4.2). -/
def wrapField (code : List Char) (width : Nat) (body : List Char) : List (List Char) :=
  (chunksOf width body).map (fun c => code ++ c)

/-- Pad a list on the right with blanks up to the given width. -/
def padRightTo (w : Nat) (l : List Char) : List Char :=
  l ++ List.replicate (w - l.length) ' '

/-- Pad a list on the left with blanks up to the given width. -/
def padLeftTo (w : Nat) (l : List Char) : List Char :=
  List.replicate (w - l.length) ' ' ++ l

/-- Pad or truncate a list to exactly the given width (spec section 4.2:
the feature key is "left-padded/truncated to a fixed column"). -/
def padTruncate (w : Nat) (l : List Char) : List Char :=
  padRightTo w (l.take w)

/-- Decimal rendering of a natural number, digit characters in order. -/
def natChars (n : Nat) : List Char :=
  if n < 10 then [Char.ofNat (48 + n)]
  else natChars (n / 10) ++ [Char.ofNat (48 + n % 10)]
termination_by n
decreasing_by
  exact Nat.div_lt_self (by omega) (by omega)

theorem chunksOf_width_le (width : Nat) (hw : 0 < width) :
    ∀ (n : Nat) (body : List Char), body.length ≤ n →
      ∀ c ∈ chunksOf width body, c.length ≤ width := by
  intro n
  induction n with
  | zero =>
    intro body hb c hc
    rw [chunksOf] at hc
    have hlen : body.length = 0 := Nat.le_zero.mp hb
    rw [if_pos (Or.inl (by omega))] at hc
    simp only [List.mem_singleton] at hc
    subst hc
    omega
  | succ n ih =>
    intro body hb c hc
    rw [chunksOf] at hc
    by_cases hcond : body.length ≤ width ∨ width = 0
    · rw [if_pos hcond] at hc
      simp only [List.mem_singleton] at hc
      subst hc
      omega
    · rw [if_neg hcond] at hc
      push_neg at hcond
      rcases List.mem_cons.mp hc with h1 | h2
      · subst h1
        simp [List.length_take]
      · exact ih (body.drop width) (by simp [List.length_drop]; omega) c h2

theorem wrapField_line_length (code : List Char) (width : Nat) (hw : 0 < width)
    (body : List Char) :
    ∀ line ∈ wrapField code width body, line.length ≤ code.length + width := by
  intro line hl
  simp only [wrapField, List.mem_map] at hl
  obtain ⟨c, hc, rfl⟩ := hl
  have := chunksOf_width_le width hw body.length body le_rfl c hc
  simp only [List.length_append]
  omega

theorem wrapField_line_code (code : List Char) (width : Nat) (body : List Char) :
    ∀ line ∈ wrapField code width body, line.take code.length = code := by
  intro line hl
  simp only [wrapField, List.mem_map] at hl
  obtain ⟨c, _, rfl⟩ := hl
  simp [List.take_left]

theorem padRightTo_length (w : Nat) (l : List Char) (h : l.length ≤ w) :
    (padRightTo w l).length = w := by
  simp [padRightTo]
  omega

theorem padLeftTo_length (w : Nat) (l : List Char) (h : l.length ≤ w) :
    (padLeftTo w l).length = w := by
  simp [padLeftTo]
  omega

theorem padTruncate_length (w : Nat) (l : List Char) :
    (padTruncate w l).length = w := by
  unfold padTruncate
  apply padRightTo_length
  simp [List.length_take]

theorem natChars_length_le : ∀ (k : Nat), 0 < k → ∀ n < 10 ^ k,
    (natChars n).length ≤ k := by
  intro k
  induction k with
  | zero => omega
  | succ k ih =>
    intro _ n hn
    rw [natChars]
    by_cases h10 : n < 10
    · simp [h10]
    · rw [if_neg h10]
      have hk : 0 < k := by
        by_contra hk0
        have : k = 0 := by omega
        subst this
        simp [pow_succ, pow_zero] at hn
        omega
      have hdiv : n / 10 < 10 ^ k := by
        rw [Nat.div_lt_iff_lt_mul (by omega)]
        calc n < 10 ^ (k + 1) := hn
        _ = 10 ^ k * 10 := by ring
      have := ih hk (n / 10) hdiv
      simp only [List.length_append, List.length_singleton]
      omega

/-- Modelled from the spec: strand orientation of a Location (spec
section 3). -/
inductive Strand where
  | forward
  | reverse
deriving DecidableEq

/-- Modelled from the spec: one coordinate range of a Location (spec
section 3): 1-based inclusive start and stop, optionally fuzzy on either
side. -/
structure CoordRange where
  start : Nat
  stop : Nat
  fuzzyStart : Bool
  fuzzyStop : Bool
deriving DecidableEq

/-- Modelled from the spec: a Location (spec section 3): one or more
coordinate ranges with a strand orientation, combined by join/complement
syntax. -/
structure Location where
  strand : Strand
  ranges : List CoordRange
deriving DecidableEq

/-- Modelled from the spec: a Qualifier value (spec section 3): absent
(flag), a bare token, or quotable free text. -/
inductive QualifierValue where
  | flag
  | bare (token : String)
  | text (value : List Char)
deriving DecidableEq

/-- Modelled from the spec: a Qualifier (spec section 3): key and value. -/
structure Qualifier where
  key : String
  value : QualifierValue
deriving DecidableEq

/-- Modelled from the spec: a Feature (spec section 3): type tag, Location
and qualifiers.  Children are flattened into the sibling list upstream
(spec section 4.2: the hierarchy is informational for ordering only). -/
structure Feature where
  ftype : String
  location : Location
  qualifiers : List Qualifier
deriving DecidableEq

/-- Modelled from the spec: a SequenceRecord (spec section 3): identifier,
topology, molecule type, bases and ordered top-level Features. -/
structure SequenceRecord where
  id : String
  topology : String
  moleculeType : String
  sequence : List Char
  features : List Feature
deriving DecidableEq

/-- Modelled from the spec: HeaderMetadata (spec section 3), the
submission-level configuration consumed by the Header Builder.  Defaults are
applied by the caller (src/main.py's argument parsing), so every field is
present here. -/
structure HeaderMetadata where
  accession : String
  version : Nat
  dataClass : String
  taxonomy : String
  projectId : String
  description : List Char
  keywords : List Char
  organism : List Char
  classification : List Char
deriving DecidableEq

/-- Modelled from the spec: the renderer error taxonomy (spec section 7),
restricted to the errors reachable in this model. -/
inductive RenderError where
  | malformedLocation
  | invalidSequence
deriving DecidableEq

instance : Inhabited RenderError := ⟨RenderError.malformedLocation⟩

/-- Modelled from the spec: validity check of one coordinate range (spec
section 4.2): on the forward strand a start exceeding the stop is rejected
with `MalformedLocationError` rather than silently reordered. -/
def checkRange (strand : Strand) (r : CoordRange) : Except RenderError Unit :=
  match strand with
  | .forward => if r.stop < r.start then .error .malformedLocation else .ok ()
  | .reverse => .ok ()

/-- Modelled from the spec: validity check of all ranges of a location, the
first invalid range failing the whole location. -/
def checkRanges (strand : Strand) : List CoordRange → Except RenderError Unit
  | [] => .ok ()
  | r :: rest =>
    match checkRange strand r with
    | .error e => .error e
    | .ok _ => checkRanges strand rest

/-- Modelled from the spec: text of one coordinate range (spec section 6):
`start..stop`, with `<` / `>` marking fuzzy boundaries. -/
def rangeText (r : CoordRange) : List Char :=
  ((if r.fuzzyStart then ['<'] else []) ++ natChars r.start) ++
    ('.' :: '.' :: ((if r.fuzzyStop then ['>'] else []) ++ natChars r.stop))

/-- Modelled from the spec: text of a whole location (spec section 6):
ranges joined by `join(...)`, reverse strand wrapped in `complement(...)`. -/
def locationBody (loc : Location) : List Char :=
  let inner := List.intercalate [','] (loc.ranges.map rangeText)
  let joined :=
    if loc.ranges.length ≤ 1 then inner
    else "join(".toList ++ inner ++ [')']
  match loc.strand with
  | .forward => joined
  | .reverse => "complement(".toList ++ joined ++ [')']

/-- Modelled from the spec: the Feature Table Renderer's location rendering
(spec section 4.2): validation first, then the location expression. -/
def renderLocation (loc : Location) : Except RenderError (List Char) :=
  match checkRanges loc.strand loc.ranges with
  | .error e => .error e
  | .ok _ => .ok (locationBody loc)

/-- The fixed first-line head of a feature entry: the `FT` line code, three
blanks, and the feature key padded or truncated to the fixed key column. -/
def ftHead (key : String) : List Char :=
  "FT   ".toList ++ padTruncate 16 key.toList

/-- The fixed indent of feature continuation and qualifier lines: `FT`
followed by blanks up to the qualifier column. -/
def ftIndent : List Char :=
  "FT   ".toList ++ List.replicate 16 ' '

/-- The width left for feature/qualifier text after the fixed indent. -/
def featureBodyWidth : Nat := maxLineWidth - 21

/-- Modelled from the spec: the feature key/location lines (spec
section 4.2): key plus first location chunk, continuations indented. -/
def keyLocLines (key : String) (locText : List Char) : List (List Char) :=
  match chunksOf featureBodyWidth locText with
  | [] => []
  | c :: cs => (ftHead key ++ c) :: cs.map (fun chunk => ftIndent ++ chunk)

/-- Modelled from the spec: the `/key=value` text of one qualifier (spec
sections 3 and 4.2); free text is quoted with doubled embedded quotes. -/
def qualText (q : Qualifier) : List Char :=
  match q.value with
  | .flag => '/' :: q.key.toList
  | .bare tok => ('/' :: q.key.toList ++ ['=']) ++ tok.toList
  | .text v => ('/' :: q.key.toList ++ ['=']) ++ renderedQualValue v

/-- Modelled from the spec: the wrapped lines of one qualifier (spec
section 4.2): fixed indent, wrapped so no line exceeds the width. -/
def qualifierLines (q : Qualifier) : List (List Char) :=
  wrapField ftIndent featureBodyWidth (qualText q)

/-- Modelled from the spec: the Feature Table Renderer (spec section 4.2):
one feature's table lines — location lines then qualifier lines — or a
`MalformedLocationError`. -/
def renderFeature (f : Feature) : Except RenderError (List (List Char)) :=
  match renderLocation f.location with
  | .error e => .error e
  | .ok locText =>
    .ok (keyLocLines f.ftype locText ++ (f.qualifiers.map qualifierLines).flatten)

/-- Collect a list of fallible results into a fallible list, the first
error failing the whole list. -/
def sequenceExcept {ε α : Type} : List (Except ε α) → Except ε (List α)
  | [] => .ok []
  | x :: rest =>
    match x with
    | .error e => .error e
    | .ok a =>
      match sequenceExcept rest with
      | .error e => .error e
      | .ok as => .ok (a :: as)

/-- The successful lines of a fallible rendering, empty on error (errors
are never emitted; spec section 7). -/
def linesOf {ε α : Type} (e : Except ε (List α)) : List α :=
  e.toOption.getD []

/-- Modelled from the spec: the sequential (inline, no pool) feature table
(spec sections 4.2, 4.4): every feature rendered in declaration order, lines
concatenated, first error failing the record. -/
def featureTable (fs : List Feature) : Except RenderError (List (List Char)) :=
  (sequenceExcept (fs.map renderFeature)).map List.flatten

/-- Modelled from the spec: one header field (spec section 4.1): two-letter
line code, three blanks of indent, body wrapped to the maximum width. -/
def headerField (code : List Char) (body : List Char) : List (List Char) :=
  wrapField (code ++ [' ', ' ', ' ']) (maxLineWidth - 5) body

/-- Modelled from the spec: the Header Builder's field list (spec
section 4.1): fixed order, code and body per field, optional fields (here
the keywords) omitted entirely when absent. -/
def headerFieldSpecs (h : HeaderMetadata) (r : SequenceRecord) :
    List (List Char × List Char) :=
  [("ID".toList,
     ((((((r.id.toList ++ "; SV ".toList) ++ natChars h.version) ++
       ("; ".toList ++ r.topology.toList)) ++
       ("; ".toList ++ r.moleculeType.toList)) ++
       ("; ".toList ++ h.dataClass.toList)) ++
       ("; ".toList ++ h.taxonomy.toList)) ++
       ("; ".toList ++ natChars r.sequence.length ++ " BP.".toList)),
   ("AC".toList, h.accession.toList ++ [';']),
   ("PR".toList, "Project:".toList ++ h.projectId.toList ++ [';']),
   ("DE".toList, h.description),
   ("OS".toList, h.organism),
   ("OC".toList, h.classification)] ++
  (if h.keywords = [] then [] else [("KW".toList, h.keywords)])

/-- Modelled from the spec: the Header Builder (spec section 4.1): the
ordered header lines, each field wrapped with its line code. -/
def headerLines (h : HeaderMetadata) (r : SequenceRecord) : List (List Char) :=
  ((headerFieldSpecs h r).map (fun p => headerField p.1 p.2)).flatten

/-- The fixed feature-table section header lines. -/
def fhLines : List (List Char) :=
  ["FH   Key             Location/Qualifiers".toList, "FH".toList]

/-- Modelled from the spec: grouping of a sequence line's bases into blocks
of ten separated by blanks (spec section 4.3). -/
def grouped (s : List Char) : List Char :=
  if s.length ≤ 10 then s
  else s.take 10 ++ ' ' :: grouped (s.drop 10)
termination_by s.length
decreasing_by
  simp only [List.length_drop]
  omega

/-- Modelled from the spec: one emitted sequence line (spec section 4.3):
five blanks of indent, up to sixty upper-cased bases in groups of ten, and
the right-aligned running 1-based position of the line's last base. -/
def seqLine (count : Nat) (chunk : List Char) : List Char :=
  padRightTo 70 (List.replicate 5 ' ' ++ grouped (chunk.map Char.toUpper)) ++
    padLeftTo 10 (natChars count)

/-- Modelled from the spec: the emitted sequence body lines, sixty bases per
line with a running position counter. -/
def seqBodyLines (pos : Nat) (s : List Char) : List (List Char) :=
  if s.length = 0 then []
  else if s.length ≤ 60 then [seqLine (pos + s.length) s]
  else seqLine (pos + 60) (s.take 60) :: seqBodyLines (pos + 60) (s.drop 60)
termination_by s.length
decreasing_by
  simp only [List.length_drop]
  omega

/-- Modelled from the spec: the summary text of the `SQ` line (spec
section 4.3): total length and the five composition counts. -/
def sqSummaryBody (s : List Char) : List Char :=
  (("Sequence ".toList ++ natChars s.length ++ " BP; ".toList) ++
   (natChars (countBase s 'a') ++ " A; ".toList) ++
   (natChars (countBase s 'c') ++ " C; ".toList)) ++
  ((natChars (countBase s 'g') ++ " G; ".toList) ++
   (natChars (countBase s 't') ++ " T; ".toList) ++
   (natChars (countOther s) ++ " other;".toList))

/-- Modelled from the spec: the Sequence Block Renderer (spec section 4.3):
summary line plus body lines, or `InvalidSequenceError` on an empty
sequence. -/
def sequenceBlock (s : List Char) : Except RenderError (List (List Char)) :=
  if s.length = 0 then .error .invalidSequence
  else .ok (headerField "SQ".toList (sqSummaryBody s) ++ seqBodyLines 0 s)

/-- The fixed record terminator line. -/
def terminatorLine : List Char := "//".toList

/-- Modelled from the spec: the Record Writer (spec section 4.5), missing
from the visible sources: header lines, feature-table section, sequence
block and terminator, in order; the first captured failure fails the whole
record, with no partial output. -/
def renderRecord (h : HeaderMetadata) (r : SequenceRecord) :
    Except RenderError (List (List Char)) :=
  match featureTable r.features with
  | .error e => .error e
  | .ok ft =>
    match sequenceBlock r.sequence with
    | .error e => .error e
    | .ok sq => .ok (headerLines h r ++ fhLines ++ ft ++ sq ++ [terminatorLine])

/-- Modelled from the spec: the output-slot arena of the Concurrency
Coordinator (spec sections 4.4 and 5), missing from the visible sources:
tasks are executed in an arbitrary completion order and each completing
task writes its result into the slot of its original submission index. -/
def runPooledSlots {β : Type} (tasks : List (Unit → β)) (order : List Nat) :
    Nat → Option β :=
  order.foldl (fun acc i =>
    match tasks[i]? with
    | some t => fun j => if j = i then some (t ()) else acc j
    | none => acc) (fun _ => none)

/-- Modelled from the spec: pooled execution (spec section 4.4): run the
tasks in the given completion order, then reassemble the results by
original index, not by completion time. -/
def runPooled {β : Type} [Inhabited β] (tasks : List (Unit → β))
    (order : List Nat) : List β :=
  (List.range tasks.length).map
    (fun i => (runPooledSlots tasks order i).getD default)

/-- Modelled from the spec: inline execution (spec section 5: a level of one
or an absent pool means strictly sequential, synchronous execution). -/
def runInline {β : Type} (tasks : List (Unit → β)) : List β :=
  tasks.map (fun t => t ())

theorem runPooledSlots_eq {β : Type} (tasks : List (Unit → β)) :
    ∀ (order : List Nat) (acc : Nat → Option β) (i : Nat),
      (order.foldl (fun acc i =>
        match tasks[i]? with
        | some t => fun j => if j = i then some (t ()) else acc j
        | none => acc) acc) i =
      if i ∈ order ∧ (tasks[i]?).isSome
      then (tasks[i]?).map (fun t => t ())
      else acc i := by
  intro order
  induction order with
  | nil => simp
  | cons j rest ih =>
    intro acc i
    rw [List.foldl_cons, ih]
    by_cases hrest : i ∈ rest ∧ (tasks[i]?).isSome
    · rw [if_pos hrest, if_pos ⟨List.mem_cons_of_mem j hrest.1, hrest.2⟩]
    · rw [if_neg hrest]
      cases hj : tasks[j]? with
      | some t =>
        simp only
        by_cases hij : i = j
        · subst hij
          rw [if_pos rfl, if_pos ⟨List.mem_cons_self i rest, by simp [hj]⟩]
          simp [hj]
        · rw [if_neg hij]
          rw [if_neg]
          intro ⟨hmem, hsome⟩
          rcases List.mem_cons.mp hmem with h1 | h2
          · exact hij h1
          · exact hrest ⟨h2, hsome⟩
      | none =>
        simp only
        rw [if_neg]
        intro ⟨hmem, hsome⟩
        rcases List.mem_cons.mp hmem with h1 | h2
        · subst h1
          rw [hj] at hsome
          simp at hsome
        · exact hrest ⟨h2, hsome⟩

theorem runPooled_eq_runInline {β : Type} [Inhabited β]
    (tasks : List (Unit → β)) (order : List Nat)
    (h : order.Perm (List.range tasks.length)) :
    runPooled tasks order = runInline tasks := by
  apply List.ext_getElem
  · simp [runPooled, runInline]
  · intro i h1 h2
    simp only [runPooled, runInline, List.getElem_map, List.getElem_range]
    have hlen : i < tasks.length := by
      simpa [runPooled] using h1
    have hmem : i ∈ order := by
      rw [h.mem_iff, List.mem_range]
      exact hlen
    have hget : tasks[i]? = some tasks[i] := List.getElem?_eq_getElem hlen
    unfold runPooledSlots
    rw [runPooledSlots_eq tasks order (fun _ => none) i,
      if_pos ⟨hmem, by simp [hget]⟩, hget]
    rfl

instance : Inhabited (Except RenderError (List (List Char))) :=
  ⟨Except.error default⟩

/-- Modelled from the spec: the per-feature rendering tasks handed to the
worker pool (spec section 4.4): one pure task per top-level feature. -/
def featureTasks (fs : List Feature) :
    List (Unit → Except RenderError (List (List Char))) :=
  fs.map (fun f _ => renderFeature f)

/-- Modelled from the spec: the feature table as produced through the worker
pool (spec section 4.4): tasks run in an arbitrary completion order, results
reassembled by original index, then combined exactly like the sequential
table. -/
def featureTablePooled (fs : List Feature) (order : List Nat) :
    Except RenderError (List (List Char)) :=
  (sequenceExcept (runPooled (featureTasks fs) order)).map List.flatten

/-- Modelled from the spec: the Record Writer driving the pooled feature
table (spec sections 4.4, 4.5). -/
def renderRecordPooled (h : HeaderMetadata) (r : SequenceRecord)
    (order : List Nat) : Except RenderError (List (List Char)) :=
  match featureTablePooled r.features order with
  | .error e => .error e
  | .ok ft =>
    match sequenceBlock r.sequence with
    | .error e => .error e
    | .ok sq => .ok (headerLines h r ++ fhLines ++ ft ++ sq ++ [terminatorLine])

theorem runInline_featureTasks (fs : List Feature) :
    runInline (featureTasks fs) = fs.map renderFeature := by
  simp [runInline, featureTasks]

theorem featureTasks_length (fs : List Feature) :
    (featureTasks fs).length = fs.length := by
  simp [featureTasks]

theorem linesOf_ok {ε γ : Type} (a : List γ) :
    linesOf (ε := ε) (.ok a) = a := rfl

theorem sequenceExcept_ok {ε γ : Type} :
    ∀ (l : List (Except ε (List γ))) (ls : List (List γ)),
      sequenceExcept l = .ok ls → ls = l.map linesOf := by
  intro l
  induction l with
  | nil =>
    intro ls h
    simp only [sequenceExcept, Except.ok.injEq] at h
    simp [← h]
  | cons x rest ih =>
    intro ls h
    cases x with
    | error e => simp [sequenceExcept] at h
    | ok a =>
      simp only [sequenceExcept] at h
      cases hrest : sequenceExcept rest with
      | error e => rw [hrest] at h; simp at h
      | ok as =>
        rw [hrest] at h
        simp only [Except.ok.injEq] at h
        subst h
        rw [List.map_cons, linesOf_ok, ih as hrest]

theorem sequenceExcept_mem_ok {ε γ : Type} :
    ∀ (l : List (Except ε γ)) (ls : List γ), sequenceExcept l = .ok ls →
      ∀ x ∈ l, ∃ a, x = .ok a := by
  intro l
  induction l with
  | nil => intro ls _ x hx; exact absurd hx (List.not_mem_nil x)
  | cons y rest ih =>
    intro ls h x hx
    cases y with
    | error e => simp [sequenceExcept] at h
    | ok a =>
      simp only [sequenceExcept] at h
      cases hrest : sequenceExcept rest with
      | error e => rw [hrest] at h; simp at h
      | ok as =>
        rcases List.mem_cons.mp hx with h1 | h2
        · exact ⟨a, h1⟩
        · exact ih as hrest x h2

theorem sequenceExcept_error {ε γ : Type} :
    ∀ (l : List (Except ε γ)) (e : ε), sequenceExcept l = .error e →
      ∃ x ∈ l, x = .error e := by
  intro l
  induction l with
  | nil => intro e h; simp [sequenceExcept] at h
  | cons y rest ih =>
    intro e h
    cases y with
    | error e0 =>
      simp only [sequenceExcept, Except.error.injEq] at h
      exact ⟨.error e0, List.mem_cons_self _ _, by rw [h]⟩
    | ok a =>
      simp only [sequenceExcept] at h
      cases hrest : sequenceExcept rest with
      | error e1 =>
        rw [hrest] at h
        simp only [Except.error.injEq] at h
        obtain ⟨x, hx, hxe⟩ := ih e1 hrest
        exact ⟨x, List.mem_cons_of_mem _ hx, by rw [hxe, h]⟩
      | ok as => rw [hrest] at h; simp at h

/-- A sample feature used by the concrete witnesses. -/
def geneFeature : Feature :=
  ⟨"gene", ⟨Strand.forward, [⟨1, 3, false, false⟩]⟩, [⟨"gene", .bare "abc"⟩]⟩

/-- A second sample feature with a quoted free-text qualifier. -/
def noteFeature : Feature :=
  ⟨"CDS", ⟨Strand.forward, [⟨1, 2, false, false⟩]⟩,
    [⟨"note", .text ('h' :: '"' :: ['i'])⟩]⟩

/-- A sample record with two features, used by the concrete witnesses. -/
def sampleRecord : SequenceRecord :=
  ⟨"chr1", "linear", "genomic DNA", "acgt".toList, [geneFeature, noteFeature]⟩

/-- Sample header metadata used by the concrete witnesses. -/
def sampleHeader : HeaderMetadata :=
  ⟨"XXX", 1, "STD", "UNC", "PRJ1", "test record".toList, [],
    "Genus species".toList, "Eukaryota".toList⟩

/-- C3: rendering a record through the worker pool, whatever the completion
order of the per-feature tasks, produces output byte-identical to the
strictly sequential, inline rendering. -/
theorem pooled_eq_sequential (h : HeaderMetadata) (r : SequenceRecord)
    (order : List Nat) (hord : order.Perm (List.range r.features.length)) :
    renderRecordPooled h r order = renderRecord h r := by
  have htasks :
      runPooled (featureTasks r.features) order = r.features.map renderFeature := by
    rw [runPooled_eq_runInline _ _ (by rwa [featureTasks_length]),
      runInline_featureTasks]
  unfold renderRecordPooled renderRecord featureTablePooled featureTable
  rw [htasks]

/-- Witness for C3: the sample record rendered with reversed completion
order equals its sequential rendering. -/
theorem pooled_eq_sequential_witness :
    ([1, 0] : List Nat).Perm (List.range sampleRecord.features.length) ∧
    renderRecordPooled sampleHeader sampleRecord [1, 0] =
      renderRecord sampleHeader sampleRecord :=
  ⟨by decide, pooled_eq_sequential sampleHeader sampleRecord [1, 0] (by decide)⟩

/-- C4: the pooled feature table equals the sequential one for every
completion order, and a successful feature table is exactly the
concatenation, in input order, of each feature's own lines — no reordering
by type or position. -/
theorem feature_order_preserved (fs : List Feature) (order : List Nat)
    (hord : order.Perm (List.range fs.length)) :
    featureTablePooled fs order = featureTable fs ∧
    ∀ ls, featureTable fs = .ok ls →
      ls = (fs.map (fun f => linesOf (renderFeature f))).flatten := by
  constructor
  · unfold featureTablePooled featureTable
    rw [runPooled_eq_runInline _ _ (by rwa [featureTasks_length]),
      runInline_featureTasks]
  · intro ls hok
    unfold featureTable at hok
    cases hse : sequenceExcept (fs.map renderFeature) with
    | error e => rw [hse] at hok; simp [Except.map] at hok
    | ok as =>
      rw [hse] at hok
      simp only [Except.map, Except.ok.injEq] at hok
      rw [← hok, sequenceExcept_ok (fs.map renderFeature) as hse, List.map_map]
      rfl

/-- Witness for C4: the sample features with reversed completion order. -/
theorem feature_order_preserved_witness :
    ([1, 0] : List Nat).Perm (List.range sampleRecord.features.length) ∧
    (featureTablePooled sampleRecord.features [1, 0] =
        featureTable sampleRecord.features ∧
      ∀ ls, featureTable sampleRecord.features = .ok ls →
        ls = (sampleRecord.features.map
          (fun f => linesOf (renderFeature f))).flatten) :=
  ⟨by decide, feature_order_preserved sampleRecord.features [1, 0] (by decide)⟩

theorem checkRange_error_eq {strand : Strand} {r : CoordRange} {e : RenderError}
    (h : checkRange strand r = .error e) : e = .malformedLocation := by
  cases strand with
  | forward =>
    unfold checkRange at h
    by_cases hlt : r.stop < r.start
    · rw [if_pos hlt] at h
      cases h
      rfl
    · rw [if_neg hlt] at h
      cases h
  | reverse => cases h

theorem checkRanges_error_eq {strand : Strand} :
    ∀ {rs : List CoordRange} {e : RenderError},
      checkRanges strand rs = .error e → e = .malformedLocation := by
  intro rs
  induction rs with
  | nil => intro e h; cases h
  | cons r rest ih =>
    intro e h
    unfold checkRanges at h
    cases hc : checkRange strand r with
    | error e0 =>
      rw [hc] at h
      cases h
      exact checkRange_error_eq hc
    | ok u =>
      rw [hc] at h
      exact ih h

theorem checkRanges_error_of_mem {strand : Strand} {rg : CoordRange} :
    ∀ {rs : List CoordRange}, rg ∈ rs →
      checkRange strand rg = .error .malformedLocation →
      checkRanges strand rs = .error .malformedLocation := by
  intro rs
  induction rs with
  | nil => intro hmem; exact absurd hmem (List.not_mem_nil rg)
  | cons r rest ih =>
    intro hmem hbad
    unfold checkRanges
    cases hc : checkRange strand r with
    | error e0 => rw [checkRange_error_eq hc]
    | ok u =>
      rcases List.mem_cons.mp hmem with h1 | h2
      · subst h1
        rw [hbad] at hc
        cases hc
      · exact ih h2 hbad

theorem renderFeature_error_eq {f : Feature} {e : RenderError}
    (h : renderFeature f = .error e) : e = .malformedLocation := by
  unfold renderFeature at h
  cases hloc : renderLocation f.location with
  | error e0 =>
    rw [hloc] at h
    cases h
    unfold renderLocation at hloc
    cases hchk : checkRanges f.location.strand f.location.ranges with
    | error e1 =>
      rw [hchk] at hloc
      cases hloc
      exact checkRanges_error_eq hchk
    | ok u => rw [hchk] at hloc; cases hloc
  | ok locText => rw [hloc] at h; cases h

theorem renderFeature_error_of_range {f : Feature} {rg : CoordRange}
    (hrg : rg ∈ f.location.ranges) (hstrand : f.location.strand = .forward)
    (hlt : rg.stop < rg.start) :
    renderFeature f = .error .malformedLocation := by
  have hbad : checkRange f.location.strand rg = .error .malformedLocation := by
    rw [hstrand]
    unfold checkRange
    rw [if_pos hlt]
  have hchk := checkRanges_error_of_mem hrg hbad
  unfold renderFeature renderLocation
  rw [hchk]

theorem featureTable_error_of_mem {fs : List Feature} {f : Feature}
    (hf : f ∈ fs) (hbad : renderFeature f = .error .malformedLocation) :
    featureTable fs = .error .malformedLocation := by
  unfold featureTable
  cases hse : sequenceExcept (fs.map renderFeature) with
  | ok as =>
    obtain ⟨a, ha⟩ := sequenceExcept_mem_ok (fs.map renderFeature) as hse
      (renderFeature f) (List.mem_map_of_mem renderFeature hf)
    rw [hbad] at ha
    cases ha
  | error e =>
    obtain ⟨x, hx, hxe⟩ := sequenceExcept_error (fs.map renderFeature) e hse
    obtain ⟨f0, _, hf0⟩ := List.mem_map.mp hx
    rw [← hf0] at hxe
    rw [renderFeature_error_eq hxe]
    rfl

/-- C6: a feature holding a forward-strand range whose start exceeds its end
makes the whole record's conversion fail with `MalformedLocationError` — the
range is never silently reordered — and no feature-table output for the
record is emitted at all. -/
theorem malformed_location_rejected (h : HeaderMetadata) (r : SequenceRecord)
    (f : Feature) (hf : f ∈ r.features) (rg : CoordRange)
    (hrg : rg ∈ f.location.ranges) (hstrand : f.location.strand = .forward)
    (hlt : rg.stop < rg.start) :
    renderRecord h r = .error .malformedLocation ∧
    linesOf (renderRecord h r) = [] := by
  have hft := featureTable_error_of_mem hf
    (renderFeature_error_of_range hrg hstrand hlt)
  have hrec : renderRecord h r = .error .malformedLocation := by
    unfold renderRecord
    rw [hft]
  exact ⟨hrec, by rw [hrec]; rfl⟩

/-- A feature with an inverted forward-strand range, for the C6 witness. -/
def badFeature : Feature :=
  ⟨"gene", ⟨Strand.forward, [⟨5, 2, false, false⟩]⟩, []⟩

/-- A record holding one valid and one inverted feature, for the C6
witness. -/
def badRecord : SequenceRecord :=
  ⟨"chr2", "linear", "genomic DNA", "acgt".toList, [geneFeature, badFeature]⟩

/-- Witness for C6: the record with the inverted range fails with
`MalformedLocationError` and emits nothing. -/
theorem malformed_location_rejected_witness :
    renderRecord sampleHeader badRecord = .error .malformedLocation ∧
    linesOf (renderRecord sampleHeader badRecord) = [] :=
  malformed_location_rejected sampleHeader badRecord badFeature (by decide)
    ⟨5, 2, false, false⟩ (by decide) (by decide) (by decide)

theorem headerFieldSpecs_code_length (h : HeaderMetadata) (r : SequenceRecord) :
    ∀ p ∈ headerFieldSpecs h r, p.1.length = 2 := by
  intro p hp
  unfold headerFieldSpecs at hp
  rcases List.mem_append.mp hp with h1 | h2
  · simp only [List.mem_cons, List.not_mem_nil, or_false] at h1
    rcases h1 with rfl | rfl | rfl | rfl | rfl | rfl
    all_goals rfl
  · by_cases hk : h.keywords = []
    · rw [if_pos hk] at h2
      exact absurd h2 (List.not_mem_nil p)
    · rw [if_neg hk] at h2
      simp only [List.mem_singleton] at h2
      subst h2
      rfl

theorem headerField_line_length {code : List Char} (body : List Char)
    (hcode : code.length = 2) :
    ∀ line ∈ headerField code body, line.length ≤ maxLineWidth := by
  intro line hl
  have hw : 0 < maxLineWidth - 5 := by norm_num [maxLineWidth]
  have := wrapField_line_length (code ++ [' ', ' ', ' ']) (maxLineWidth - 5)
    hw body line hl
  simp only [List.length_append, hcode] at this
  norm_num [maxLineWidth] at this ⊢
  omega

theorem headerLines_width (h : HeaderMetadata) (r : SequenceRecord) :
    ∀ line ∈ headerLines h r, line.length ≤ maxLineWidth := by
  intro line hl
  unfold headerLines at hl
  rw [List.mem_flatten] at hl
  obtain ⟨block, hb, hlb⟩ := hl
  rw [List.mem_map] at hb
  obtain ⟨p, hp, rfl⟩ := hb
  exact headerField_line_length p.2 (headerFieldSpecs_code_length h r p hp) line hlb

theorem ftHead_length (key : String) : (ftHead key).length = 21 := by
  simp [ftHead, padTruncate_length]

theorem ftIndent_length : ftIndent.length = 21 := by
  simp [ftIndent]

theorem featureBodyWidth_pos : 0 < featureBodyWidth := by
  norm_num [featureBodyWidth, maxLineWidth]

theorem chunk_mem_le {body c : List Char}
    (hc : c ∈ chunksOf featureBodyWidth body) : c.length ≤ featureBodyWidth :=
  chunksOf_width_le featureBodyWidth featureBodyWidth_pos body.length body
    le_rfl c hc

theorem keyLocLines_width (key : String) (locText : List Char) :
    ∀ line ∈ keyLocLines key locText, line.length ≤ maxLineWidth := by
  intro line hl
  unfold keyLocLines at hl
  cases hch : chunksOf featureBodyWidth locText with
  | nil => rw [hch] at hl; exact absurd hl (List.not_mem_nil line)
  | cons c cs =>
    rw [hch] at hl
    rcases List.mem_cons.mp hl with h1 | h2
    · subst h1
      have hc : c.length ≤ featureBodyWidth :=
        chunk_mem_le (by rw [hch]; exact List.mem_cons_self c cs)
      rw [List.length_append, ftHead_length]
      norm_num [featureBodyWidth, maxLineWidth] at hc ⊢
      omega
    · rw [List.mem_map] at h2
      obtain ⟨ch, hch2, rfl⟩ := h2
      have hc : ch.length ≤ featureBodyWidth :=
        chunk_mem_le (by rw [hch]; exact List.mem_cons_of_mem c hch2)
      rw [List.length_append, ftIndent_length]
      norm_num [featureBodyWidth, maxLineWidth] at hc ⊢
      omega

theorem qualifierLines_width (q : Qualifier) :
    ∀ line ∈ qualifierLines q, line.length ≤ maxLineWidth := by
  intro line hl
  have := wrapField_line_length ftIndent featureBodyWidth featureBodyWidth_pos
    (qualText q) line hl
  rw [ftIndent_length] at this
  norm_num [featureBodyWidth, maxLineWidth] at this ⊢
  omega

theorem renderFeature_ok {f : Feature} {lines : List (List Char)}
    (h : renderFeature f = .ok lines) :
    ∃ locText, renderLocation f.location = .ok locText ∧
      lines = keyLocLines f.ftype locText ++
        (f.qualifiers.map qualifierLines).flatten := by
  unfold renderFeature at h
  cases hloc : renderLocation f.location with
  | error e => rw [hloc] at h; cases h
  | ok locText =>
    rw [hloc] at h
    cases h
    exact ⟨locText, rfl, rfl⟩

theorem renderFeature_width (f : Feature) :
    ∀ line ∈ linesOf (renderFeature f), line.length ≤ maxLineWidth := by
  intro line hl
  cases hres : renderFeature f with
  | error e =>
    rw [hres] at hl
    exact absurd hl (List.not_mem_nil line)
  | ok lines =>
    rw [hres, linesOf_ok] at hl
    obtain ⟨locText, _, rfl⟩ := renderFeature_ok hres
    rcases List.mem_append.mp hl with h1 | h2
    · exact keyLocLines_width f.ftype locText line h1
    · rw [List.mem_flatten] at h2
      obtain ⟨block, hb, hlb⟩ := h2
      rw [List.mem_map] at hb
      obtain ⟨q, _, rfl⟩ := hb
      exact qualifierLines_width q line hlb

theorem featureTable_ok {fs : List Feature} {ls : List (List Char)}
    (h : featureTable fs = .ok ls) :
    ls = (fs.map (fun f => linesOf (renderFeature f))).flatten := by
  unfold featureTable at h
  cases hse : sequenceExcept (fs.map renderFeature) with
  | error e => rw [hse] at h; simp [Except.map] at h
  | ok as =>
    rw [hse] at h
    simp only [Except.map, Except.ok.injEq] at h
    rw [← h, sequenceExcept_ok (fs.map renderFeature) as hse, List.map_map]
    rfl

theorem featureTable_width {fs : List Feature} {ls : List (List Char)}
    (h : featureTable fs = .ok ls) :
    ∀ line ∈ ls, line.length ≤ maxLineWidth := by
  intro line hl
  rw [featureTable_ok h, List.mem_flatten] at hl
  obtain ⟨block, hb, hlb⟩ := hl
  rw [List.mem_map] at hb
  obtain ⟨f, _, rfl⟩ := hb
  exact renderFeature_width f line hlb

theorem grouped_length_le : ∀ (k : Nat), 0 < k → ∀ (s : List Char),
    s.length ≤ 10 * k → (grouped s).length ≤ s.length + k - 1 := by
  intro k
  induction k with
  | zero => omega
  | succ k ih =>
    intro _ s hs
    rw [grouped]
    by_cases h10 : s.length ≤ 10
    · rw [if_pos h10]
      omega
    · rw [if_neg h10]
      have hk : 0 < k := by omega
      have hdrop : (s.drop 10).length ≤ 10 * k := by
        simp only [List.length_drop]
        omega
      have := ih hk (s.drop 10) hdrop
      simp only [List.length_append, List.length_take, List.length_cons,
        List.length_drop] at *
      omega

theorem seqLine_length {count : Nat} {chunk : List Char}
    (hc : chunk.length ≤ 60) (hcount : count < 10 ^ 10) :
    (seqLine count chunk).length = 80 := by
  unfold seqLine
  rw [List.length_append, padRightTo_length, padLeftTo_length]
  · exact natChars_length_le 10 (by norm_num) count hcount
  · have := grouped_length_le 6 (by norm_num) (chunk.map Char.toUpper)
      (by simp only [List.length_map]; omega)
    simp only [List.length_append, List.length_replicate, List.length_map] at *
    omega

theorem seqBodyLines_width : ∀ (n pos : Nat) (s : List Char), s.length ≤ n →
    pos + s.length < 10 ^ 10 →
    ∀ line ∈ seqBodyLines pos s, line.length ≤ maxLineWidth := by
  intro n
  induction n with
  | zero =>
    intro pos s hs _ line hl
    rw [seqBodyLines, if_pos (by omega)] at hl
    exact absurd hl (List.not_mem_nil line)
  | succ n ih =>
    intro pos s hs hp line hl
    rw [seqBodyLines] at hl
    by_cases h0 : s.length = 0
    · rw [if_pos h0] at hl
      exact absurd hl (List.not_mem_nil line)
    · rw [if_neg h0] at hl
      by_cases h60 : s.length ≤ 60
      · rw [if_pos h60] at hl
        simp only [List.mem_singleton] at hl
        subst hl
        rw [seqLine_length h60 (by omega)]
        norm_num [maxLineWidth]
      · rw [if_neg h60] at hl
        rcases List.mem_cons.mp hl with h1 | h2
        · subst h1
          rw [seqLine_length (by simp) (by omega)]
          norm_num [maxLineWidth]
        · exact ih (pos + 60) (s.drop 60)
            (by simp only [List.length_drop]; omega)
            (by simp only [List.length_drop]; omega) line h2

theorem sequenceBlock_width {s : List Char} {sq : List (List Char)}
    (h : sequenceBlock s = .ok sq) (hlen : s.length < 10 ^ 10) :
    ∀ line ∈ sq, line.length ≤ maxLineWidth := by
  unfold sequenceBlock at h
  by_cases h0 : s.length = 0
  · rw [if_pos h0] at h
    cases h
  · rw [if_neg h0] at h
    cases h
    intro line hl
    rcases List.mem_append.mp hl with h1 | h2
    · exact headerField_line_length (sqSummaryBody s) (by decide) line h1
    · exact seqBodyLines_width s.length 0 s le_rfl (by omega) line h2

theorem renderRecord_ok {h : HeaderMetadata} {r : SequenceRecord}
    {lines : List (List Char)} (hok : renderRecord h r = .ok lines) :
    ∃ ft sq, featureTable r.features = .ok ft ∧
      sequenceBlock r.sequence = .ok sq ∧
      lines = headerLines h r ++ fhLines ++ ft ++ sq ++ [terminatorLine] := by
  unfold renderRecord at hok
  cases hft : featureTable r.features with
  | error e => rw [hft] at hok; cases hok
  | ok ft =>
    rw [hft] at hok
    cases hsq : sequenceBlock r.sequence with
    | error e => rw [hsq] at hok; cases hok
    | ok sq =>
      rw [hsq] at hok
      cases hok
      exact ⟨ft, sq, rfl, rfl, rfl⟩

/-- C8: every line of a successfully rendered record — header, feature
key/location, qualifier, sequence and terminator lines — stays within the
maximum column width, and every line of a wrapped field starts with that
field's line code / indent. -/
theorem rendered_line_width (h : HeaderMetadata) (r : SequenceRecord)
    (hseq : r.sequence.length < 10 ^ 10) :
    (∀ line ∈ linesOf (renderRecord h r), line.length ≤ maxLineWidth) ∧
    (∀ (code : List Char) (width : Nat) (body : List Char),
      ∀ line ∈ wrapField code width body, line.take code.length = code) := by
  constructor
  · intro line hl
    cases hrec : renderRecord h r with
    | error e =>
      rw [hrec] at hl
      exact absurd hl (List.not_mem_nil line)
    | ok lines =>
      rw [hrec, linesOf_ok] at hl
      obtain ⟨ft, sq, hft, hsq, rfl⟩ := renderRecord_ok hrec
      rcases List.mem_append.mp hl with h1 | h2
      · rcases List.mem_append.mp h1 with h3 | h4
        · rcases List.mem_append.mp h3 with h5 | h6
          · rcases List.mem_append.mp h5 with h7 | h8
            · exact headerLines_width h r line h7
            · simp only [fhLines, List.mem_cons, List.not_mem_nil, or_false]
                at h8
              rcases h8 with rfl | rfl <;> decide
          · exact featureTable_width hft line h6
        · exact sequenceBlock_width hsq hseq line h4
      · simp only [List.mem_singleton] at h2
        subst h2
        decide
  · intro code width body
    exact wrapField_line_code code width body

/-- Witness for C8 at the sample header and record. -/
theorem rendered_line_width_witness :
    sampleRecord.sequence.length < 10 ^ 10 ∧
    ((∀ line ∈ linesOf (renderRecord sampleHeader sampleRecord),
        line.length ≤ maxLineWidth) ∧
     (∀ (code : List Char) (width : Nat) (body : List Char),
        ∀ line ∈ wrapField code width body, line.take code.length = code)) :=
  ⟨by decide, rendered_line_width sampleHeader sampleRecord (by decide)⟩

end EmblMyGFF3
